import Mathlib

/-
  Verification of the linkedin-data-enrichment toolkit.

  Shallow embedding of:
  - src/utils/jsonl-splitter/main.go        (identifier sanitizer, duplicate resolver)
  - src/utils/csv-message-attacher/main.go  (headline/body reader, header resolution, row-major matching)
  - src/unnamed/part_000                    (single-column tabular merge engine)
  - src/utils/process-linkedin-profiles/main.go (job dispatcher, statistics, semaphore)

  Strings are modelled by Lean String (a list of characters); Go maps keyed by
  string are modelled by association lists; filesystem and subprocess effects are
  modelled by explicit parameters (lists of file names, outcome environments).
-/

/-! ## String utilities shared by the Go sources -/

/-- Models strings.HasPrefix at the character-list level: pre is a prefix of l. -/
def startsWithList : List Char → List Char → Bool
  | _, [] => true
  | [], _ :: _ => false
  | a :: as, b :: bs => a = b && startsWithList as bs

/-- Models strings.Contains (haystack, needle): needle occurs contiguously in hay. -/
def containsList (needle : List Char) : List Char → Bool
  | [] => startsWithList [] needle
  | c :: t => startsWithList (c :: t) needle || containsList needle t

/-- Models strings.Contains(s, sub) from the Go standard library. -/
def strContains (s sub : String) : Bool :=
  containsList sub.data s.data

/-- Models strings.HasSuffix(s, suffix) from the Go standard library. -/
def strEndsWith (s suffix : String) : Bool :=
  startsWithList s.data.reverse suffix.data.reverse

/-- Splits a character list at its last dot: returns (base, dot-extension), or
none when the list has no dot.  Models the scan-from-the-right loop inside
Go's filepath.Ext for names without path separators. -/
def extSplit : List Char → Option (List Char × List Char)
  | [] => none
  | c :: rest =>
    match extSplit rest with
    | some (b, e) => some (c :: b, e)
    | none => if c = '.' then some ([], c :: rest) else none

/-- Models filepath.Ext(s): the suffix beginning at the final dot, empty when no dot. -/
def filepathExt (s : String) : String :=
  match extSplit s.data with
  | some (_, e) => String.mk e
  | none => ""

/-- Models strings.TrimSuffix(s, filepath.Ext(s)): the file name without its extension. -/
def dropExt (s : String) : String :=
  match extSplit s.data with
  | some (b, _) => String.mk b
  | none => s

/-- Models unicode lowercasing as used by strings.ToLower, on the ASCII range
relevant to the extensions compared by the dispatcher. -/
def lowerChar (c : Char) : Char :=
  if 'A' ≤ c ∧ c ≤ 'Z' then Char.ofNat (c.toNat + 32) else c

/-- Models strings.ToLower(s). -/
def lowerStr (s : String) : String :=
  String.mk (s.data.map lowerChar)

/-- The code points of Unicode White_Space, the set trimmed by
strings.TrimSpace via unicode.IsSpace. -/
def isSpaceChar (c : Char) : Bool :=
  ([9, 10, 11, 12, 13, 32, 133, 160, 5760,
    8192, 8193, 8194, 8195, 8196, 8197, 8198, 8199, 8200, 8201, 8202,
    8232, 8233, 8239, 8287, 12288] : List Nat).contains c.toNat

/-- Models strings.TrimSpace at the character-list level: drop leading and
trailing whitespace. -/
def trimChars (cs : List Char) : List Char :=
  ((cs.dropWhile isSpaceChar).reverse.dropWhile isSpaceChar).reverse

/-! ## src/utils/jsonl-splitter/main.go -/

/-- The character class of the regex in sanitizeFilename (line 17). -/
def isInvalidChar (c : Char) : Bool :=
  (['\\', '/', ':', '*', '?', '"', '<', '>', '|'] : List Char).contains c

/-- Models sanitizeFilename (jsonl-splitter lines 15-29): replace invalid
characters by an underscore, trim surrounding whitespace, and fall back to
the default token "item" when the result is empty. -/
def sanitizeFilename (name : String) : String :=
  let replaced := name.data.map (fun c => if isInvalidChar c then '_' else c)
  let trimmed := trimChars replaced
  if trimmed = [] then "item" else String.mk trimmed

/-- Association-list lookup, modelling a read of the Go map usedFilenames. -/
def mapLookup : List (String × Nat) → String → Option Nat
  | [], _ => none
  | (k, v) :: rest, key => if k = key then some v else mapLookup rest key

/-- Association-list update, modelling a write to the Go map usedFilenames. -/
def mapInsert : List (String × Nat) → String → Nat → List (String × Nat)
  | [], key, val => [(key, val)]
  | (k, v) :: rest, key, val =>
    if k = key then (key, val) :: rest else (k, v) :: mapInsert rest key val

/-- Models the duplicate-handling block of main (jsonl-splitter lines 97-105):
an unseen token is registered with count 1 and returned unchanged; a seen
token has its count incremented and is returned with the new count as suffix. -/
def resolveName (used : List (String × Nat)) (tok : String) :
    List (String × Nat) × String :=
  match mapLookup used tok with
  | some count => (mapInsert used tok (count + 1), tok ++ "_" ++ toString (count + 1))
  | none => (mapInsert used tok 1, tok)

/-- Applies the duplicate resolver to a sequence of tokens in encounter order. -/
def resolveNames (used : List (String × Nat)) : List String → List String
  | [] => []
  | t :: ts =>
    let p := resolveName used t
    p.2 :: resolveNames p.1 ts

/-! ## src/utils/csv-message-attacher/main.go -/

/-- Models readMarkdownFile (csv-message-attacher lines 16-50) on a file already
split into its lines: the first line is the headline, the second the body; a
missing line contributes the empty string and never an error.  IO-level read
errors are outside this pure model, matching the error-free paths of the code. -/
def readMarkdownFile (lines : List String) : Except String (String × String) :=
  match lines with
  | [] => Except.ok ("", "")
  | [h] => Except.ok (h, "")
  | h :: b :: _ => Except.ok (h, b)

/-- Models findHeaderIndex (csv-message-attacher lines 53-61): the index of the
column name in the header, or, when absent, the name appended at the end with
the flag true; part_000 lines 60-76 perform the same resolution inline. -/
def findHeaderIndex : List String → String → Nat × List String × Bool
  | [], columnName => (0, [columnName], true)
  | h :: rest, columnName =>
    if h = columnName then (0, h :: rest, false)
    else
      let p := findHeaderIndex rest columnName
      (p.1 + 1, h :: p.2.1, p.2.2)

/-- Models findMatchingMarkdown (csv-message-attacher lines 64-91): scan the
directory entries in order, skip names not ending in .md, and return the first
file whose base name is contained in some field of the given row. -/
def findMatchingMarkdown (mdNames : List String) (csvRow : List String) :
    Option String :=
  match mdNames with
  | [] => none
  | nm :: rest =>
    if strEndsWith nm ".md" then
      if csvRow.any (fun field => strContains field (dropExt nm)) then some nm
      else findMatchingMarkdown rest csvRow
    else findMatchingMarkdown rest csvRow

/-! ## src/unnamed/part_000 — single-column tabular merge -/

/-- A data record matches a base identifier when some field contains it as a
substring (part_000 lines 117-118). -/
def rowMatches (baseId : String) (row : List String) : Bool :=
  row.any (fun field => strContains field baseId)

/-- Models the write at part_000 lines 120-125: pad the record with empty
fields while its length is at most the column index, then overwrite the cell
at that index with the artifact content. -/
def setCell (row : List String) (c : Nat) (content : String) : List String :=
  (row ++ List.replicate (c + 1 - row.length) "").set c content

/-- Models the matching loop of part_000 lines 113-137 for one artifact: scan
the data records in table order, stop at the first record with a matching
field, pad and overwrite its target cell; returns the updated records together
with the index of the matched record (none if no record matched). -/
def attachOne (c : Nat) (content baseId : String) :
    List (List String) → List (List String) × Option Nat
  | [] => ([], none)
  | row :: rest =>
    if rowMatches baseId row then (setCell row c content :: rest, some 0)
    else
      let p := attachOne c content baseId rest
      (row :: p.1, p.2.map (fun i => i + 1))

/-- Models the padding loop of part_000 lines 78-83: each data record that is
shorter than the header is extended by one empty field. -/
def padRecordsOnce (headers2 : List String) (rows : List (List String)) :
    List (List String) :=
  rows.map (fun r => if r.length < headers2.length then r ++ [""] else r)

/-! ## src/utils/process-linkedin-profiles/main.go -/

/-- The file-type constants of the dispatcher (lines 16-20). -/
inductive FileType
  | json
  | md
  | unknown
deriving DecidableEq

/-- Models detectFileType (lines 191-201): classify by the lowercased extension. -/
def detectFileType (path : String) : FileType :=
  let ext := lowerStr (filepathExt path)
  if ext = ".json" then FileType.json
  else if ext = ".md" then FileType.md
  else FileType.unknown

/-- Models findInputFiles (lines 170-188): the glob for *.json followed by the
glob for *.md over the entries of the input folder; a separator-free name
matches such a pattern exactly when it ends in the extension. -/
def findInputFiles (names : List String) : List String :=
  names.filter (fun n => strEndsWith n ".json") ++
    names.filter (fun n => strEndsWith n ".md")

/-- The environment of one job: which of the fallible steps of processFile
(lines 236-342) fail, in the order the code checks them. -/
structure JobEnv where
  cmdEmpty : Bool
  readErr : Bool
  pipeErr : Bool
  startErr : Bool
  writeErr : Bool
  waitErr : Bool
deriving DecidableEq

/-- The single outcome a job reports to the statistics. -/
inductive Outcome
  | success (ft : FileType)
  | failed
  | skipped
deriving DecidableEq

/-- Models the control flow of processFile (lines 236-342): every return path
performs exactly one statistics increment, reflected here as the single
Outcome value returned. -/
def processFileOutcome (filePath : String) (env : JobEnv) : Outcome :=
  if env.cmdEmpty then Outcome.failed
  else if detectFileType filePath = FileType.unknown then Outcome.skipped
  else if env.readErr then Outcome.failed
  else if env.pipeErr then Outcome.failed
  else if env.startErr then Outcome.failed
  else if env.writeErr then Outcome.failed
  else if env.waitErr then Outcome.failed
  else Outcome.success (detectFileType filePath)

/-- Models ProcessingStats (lines 33-41). -/
structure ProcessingStats where
  total : Nat
  successful : Nat
  failed : Nat
  skipped : Nat
  jsonFiles : Nat
  mdFiles : Nat
deriving DecidableEq

/-- The statistics object after setTotal (line 139) and before any job runs. -/
def initStats (n : Nat) : ProcessingStats :=
  { total := n, successful := 0, failed := 0, skipped := 0,
    jsonFiles := 0, mdFiles := 0 }

/-- Models one mutex-protected increment (incrementSuccessful, incrementFailed,
incrementSkipped, lines 49-72): exactly one outcome counter grows by one. -/
def applyOutcome (s : ProcessingStats) : Outcome → ProcessingStats
  | Outcome.success ft =>
    { s with successful := s.successful + 1,
             jsonFiles := if ft = FileType.json then s.jsonFiles + 1 else s.jsonFiles,
             mdFiles := if ft = FileType.md then s.mdFiles + 1 else s.mdFiles }
  | Outcome.failed => { s with failed := s.failed + 1 }
  | Outcome.skipped => { s with skipped := s.skipped + 1 }

/-- The statistics after a serialized sequence of outcome increments, starting
from a total fixed to the number of enumerated files. -/
def runStats (n : Nat) (outs : List Outcome) : ProcessingStats :=
  outs.foldl applyOutcome (initStats n)

/-- Models the discovery branch of main (lines 117-132): an enumeration error
exits with code 1, an empty enumeration warns and exits with code 0, and a
non-empty enumeration proceeds to processing (no exit yet). -/
def mainExitCode (enumResult : Except String (List String)) : Option Nat :=
  match enumResult with
  | Except.error _ => some 1
  | Except.ok [] => some 0
  | Except.ok (_ :: _) => none

/-- The dispatcher state visible to the semaphore (main lines 134-153):
jobs not yet launched, and jobs holding a semaphore token (acquired at line
144, released by the deferred receive at line 147 on every exit path of
processFile). -/
structure DispatchState where
  toLaunch : Nat
  inFlight : Nat
deriving DecidableEq

/-- The two state transitions of the dispatch loop: launching a job (blocking
send on the buffered channel, possible only while fewer than maxWorkers tokens
are held) and a job finishing (deferred receive, any outcome). -/
inductive DispatchStep (maxWorkers : Nat) : DispatchState → DispatchState → Prop
  | launch (s : DispatchState) : 0 < s.toLaunch → s.inFlight < maxWorkers →
      DispatchStep maxWorkers s ⟨s.toLaunch - 1, s.inFlight + 1⟩
  | finish (s : DispatchState) : 0 < s.inFlight →
      DispatchStep maxWorkers s ⟨s.toLaunch, s.inFlight - 1⟩

/-! ## Helper lemmas -/

theorem mem_of_mem_trimChars {c : Char} {cs : List Char} (h : c ∈ trimChars cs) :
    c ∈ cs := by
  unfold trimChars at h
  rw [List.mem_reverse] at h
  have h2 := (List.dropWhile_sublist (l := (cs.dropWhile isSpaceChar).reverse)
    (p := isSpaceChar)).mem h
  rw [List.mem_reverse] at h2
  exact (List.dropWhile_sublist (l := cs) (p := isSpaceChar)).mem h2

theorem string_mk_ne_empty {cs : List Char} (h : cs ≠ []) : String.mk cs ≠ "" := by
  intro hc
  exact h (congrArg String.data hc)

/-- C5 helper: every character the sanitizer outputs avoids the invalid set. -/
theorem sanitize_chars (s : String) :
    ∀ c ∈ (sanitizeFilename s).data, isInvalidChar c = false := by
  intro c hc
  simp only [sanitizeFilename] at hc
  by_cases hemp :
      trimChars (s.data.map fun c => if isInvalidChar c then '_' else c) = []
  · rw [if_pos hemp] at hc
    have : ∀ x ∈ ("item" : String).data, isInvalidChar x = false := by decide
    exact this c hc
  · rw [if_neg hemp] at hc
    have h2 := mem_of_mem_trimChars hc
    rw [List.mem_map] at h2
    obtain ⟨a, _, ha⟩ := h2
    by_cases hinv : isInvalidChar a = true
    · rw [if_pos hinv] at ha
      rw [← ha]
      decide
    · rw [Bool.not_eq_true] at hinv
      rw [if_neg (by rw [hinv]; exact Bool.false_ne_true)] at ha
      rw [← ha]
      exact hinv

/-! ## Claim theorems -/

/-- C5: the Identifier Sanitizer replaces every character of the set
backslash / : * ? quote < > | by an underscore and trims surrounding
whitespace; an empty result falls back to the default token "item";
in particular Jo/hn:Doe maps to Jo_hn_Doe and a string of spaces maps to the
default token; the output is never empty and contains no invalid character. -/
theorem sanitizer_spec :
    sanitizeFilename "Jo/hn:Doe" = "Jo_hn_Doe" ∧
    sanitizeFilename "   " = "item" ∧
    ∀ s : String, sanitizeFilename s ≠ "" ∧
      ∀ c ∈ (sanitizeFilename s).data, isInvalidChar c = false := by
  refine ⟨by decide, by decide, fun s => ⟨?_, sanitize_chars s⟩⟩
  unfold sanitizeFilename
  by_cases hemp :
      trimChars (s.data.map fun c => if isInvalidChar c then '_' else c) = []
  · rw [if_pos hemp]
    decide
  · rw [if_neg hemp]
    exact string_mk_ne_empty hemp

/-- C5 witness: the sanitizer statement instantiated at the concrete
input "ab". -/
theorem sanitizer_spec_witness :
    sanitizeFilename "ab" ≠ "" ∧ isInvalidChar 'a' = false :=
  ⟨(sanitizer_spec.2.2 "ab").1, (sanitizer_spec.2.2 "ab").2 'a' (by decide)⟩

/-- C2 counterexample: on the token sequence a, a, a the resolver does not
output a, a_1, a_2 — the first duplicate already receives the suffix _2,
because the count is incremented from its initial registration value 1 before
the suffix is formed. -/
theorem duplicate_resolver_counterexample :
    resolveNames [] ["a", "a", "a"] ≠ ["a", "a_1", "a_2"] := by decide

/-- C2 amended: on the token sequence a, a, a presented in order to a fresh
occurrence mapping, the resolver outputs a, a_2, a_3. -/
theorem duplicate_resolver_amended :
    resolveNames [] ["a", "a", "a"] = ["a", "a_2", "a_3"] := by decide

/-- C7: for every artifact file, the first line is written to the headline
column and the second line to the body column; fewer than two lines yield an
empty body, and a fully empty file yields empty values for both columns
without an error value being returned. -/
theorem headline_body_split (lines : List String) :
    readMarkdownFile lines = Except.ok (lines.getD 0 "", lines.getD 1 "") := by
  match lines with
  | [] => rfl
  | [h] => rfl
  | h :: b :: rest => rfl

/-- C9: a discovery error terminates the dispatcher with exit code 1, while a
successful enumeration that finds zero artifacts ends the run with exit code 0
and a total of 0. -/
theorem discovery_error_and_empty_input :
    (∀ msg : String, mainExitCode (Except.error msg) = some 1) ∧
    mainExitCode (Except.ok []) = some 0 ∧
    (initStats ([] : List String).length).total = 0 :=
  ⟨fun _ => rfl, rfl, rfl⟩

/-- C1 helper: the merge loop of part_000 writes to the first matching record
and leaves every other record untouched; when no record matches, the table is
unchanged. -/
theorem attachOne_first (c : Nat) (content baseId : String) :
    ∀ rows : List (List String),
      (∀ i, (attachOne c content baseId rows).2 = some i →
        i < rows.length ∧
        rowMatches baseId (rows.getD i []) = true ∧
        (∀ j, j < i → rowMatches baseId (rows.getD j []) = false) ∧
        (∀ j, j ≠ i →
          (attachOne c content baseId rows).1.getD j [] = rows.getD j [])) ∧
      ((attachOne c content baseId rows).2 = none →
        (attachOne c content baseId rows).1 = rows ∧
        ∀ j, rowMatches baseId (rows.getD j []) = false) := by
  intro rows
  induction rows with
  | nil =>
    constructor
    · intro i h
      simp [attachOne] at h
    · intro _
      refine ⟨rfl, fun j => ?_⟩
      cases j <;> rfl
  | cons row rest ih =>
    cases hrm : rowMatches baseId row with
    | true =>
      constructor
      · intro i h
        simp only [attachOne, hrm, if_pos] at h
        have hi : i = 0 := by
          cases h
          rfl
        subst hi
        refine ⟨Nat.succ_pos _, hrm, fun j hj => absurd hj (Nat.not_lt_zero j), ?_⟩
        intro j hj
        cases j with
        | zero => exact absurd rfl hj
        | succ k =>
          simp only [attachOne, hrm, if_pos]
          rw [List.getD_cons_succ, List.getD_cons_succ]
      · intro h
        simp [attachOne, hrm] at h
    | false =>
      constructor
      · intro i h
        simp only [attachOne, hrm, Bool.false_eq_true, if_false] at h
        rw [Option.map_eq_some'] at h
        obtain ⟨i0, hi0, hieq⟩ := h
        obtain ⟨hlt, hmt, hbef, hoth⟩ := ih.1 i0 hi0
        subst hieq
        refine ⟨Nat.succ_lt_succ hlt, by rw [List.getD_cons_succ]; exact hmt,
          ?_, ?_⟩
        · intro j hj
          cases j with
          | zero => rw [List.getD_cons_zero]; exact hrm
          | succ k =>
            rw [List.getD_cons_succ]
            exact hbef k (Nat.lt_of_succ_lt_succ hj)
        · intro j hj
          cases j with
          | zero =>
            simp only [attachOne, hrm, Bool.false_eq_true, if_false]
            rw [List.getD_cons_zero, List.getD_cons_zero]
          | succ k =>
            simp only [attachOne, hrm, Bool.false_eq_true, if_false]
            rw [List.getD_cons_succ, List.getD_cons_succ]
            exact hoth k (fun hk => hj (by rw [hk]))
      · intro h
        simp only [attachOne, hrm, Bool.false_eq_true, if_false] at h
        rw [Option.map_eq_none'] at h
        obtain ⟨hunch, hall⟩ := ih.2 h
        constructor
        · simp only [attachOne, hrm, Bool.false_eq_true, if_false]
          rw [hunch]
        · intro j
          cases j with
          | zero => rw [List.getD_cons_zero]; exact hrm
          | succ k => rw [List.getD_cons_succ]; exact hall k

/-- C1 counterexample: in the headline/body merge tool
(csv-message-attacher, findMatchingMarkdown), matching is performed per
record over the artifact directory, so a single artifact can be associated
with more than one record: with the one artifact alice.md, both records of
the table whose rows are [alice x] and [alice y] are associated with it,
contradicting the claim that each artifact is associated with at most one
record by a record-major scan. -/
theorem tabular_matching_counterexample :
    ([["alice x"], ["alice y"]] : List (List String)).map
      (findMatchingMarkdown ["alice.md"]) =
      [some "alice.md", some "alice.md"] := by decide

/-- C1 amended: in the single-column merge tool (part_000), each artifact's
base identifier (file name without extension) is matched by scanning data
records in table order, fields within a record in column order; the artifact
is associated with the first record containing any field whose value contains
the base identifier as a substring, no further record is scanned or modified
for that artifact, and when no record matches the table is unchanged. -/
theorem merge_matches_first_record (c : Nat) (content fileName : String)
    (rows : List (List String)) :
    (∀ i, (attachOne c content (dropExt fileName) rows).2 = some i →
      i < rows.length ∧
      rowMatches (dropExt fileName) (rows.getD i []) = true ∧
      (∀ j, j < i → rowMatches (dropExt fileName) (rows.getD j []) = false) ∧
      (∀ j, j ≠ i →
        (attachOne c content (dropExt fileName) rows).1.getD j [] =
          rows.getD j [])) ∧
    ((attachOne c content (dropExt fileName) rows).2 = none →
      (attachOne c content (dropExt fileName) rows).1 = rows ∧
      ∀ j, rowMatches (dropExt fileName) (rows.getD j []) = false) :=
  attachOne_first c content (dropExt fileName) rows

/-- C1 witness: the amended matching statement instantiated on a concrete
table, where the artifact alice.md matches the second record and not the
first. -/
theorem merge_matches_first_record_witness :
    rowMatches (dropExt "alice.md") ([["bob"], ["x", "alice2"]].getD 1 []) = true ∧
    rowMatches (dropExt "alice.md") ([["bob"], ["x", "alice2"]].getD 0 []) = false := by
  have h := (merge_matches_first_record 0 "S" "alice.md"
    [["bob"], ["x", "alice2"]]).1 1 (by decide)
  exact ⟨h.2.1, h.2.2.1 0 (by decide)⟩

theorem getD_set_self (l : List String) (i : Nat) (a d : String)
    (h : i < l.length) : (l.set i a).getD i d = a := by
  induction l generalizing i with
  | nil => exact absurd h (Nat.not_lt_zero i)
  | cons x t ih =>
    cases i with
    | zero => rfl
    | succ k =>
      show (t.set k a).getD k d = a
      exact ih k (Nat.lt_of_succ_lt_succ h)

/-- C8 helper: after the padded overwrite, the target cell holds exactly the
artifact content. -/
theorem setCell_getD (row : List String) (c : Nat) (content : String) :
    (setCell row c content).getD c "" = content := by
  unfold setCell
  apply getD_set_self
  rw [List.length_append, List.length_replicate]
  omega

/-- C8: merging the same artifact a second time into the table produced by the
first merge leaves the record matched by the first merge holding exactly the
artifact content in the resolved column — the write is an overwrite, never an
append, so the final column value of the matched record after two merges
equals its value after one merge. -/
theorem merge_twice_same_value (c : Nat) (content baseId : String)
    (rows : List (List String)) (i : Nat)
    (h : (attachOne c content baseId rows).2 = some i) :
    ((attachOne c content baseId rows).1.getD i []).getD c "" = content ∧
    (((attachOne c content baseId
        (attachOne c content baseId rows).1).1.getD i []).getD c "") = content := by
  induction rows generalizing i with
  | nil => simp [attachOne] at h
  | cons row rest ih =>
    cases hrm : rowMatches baseId row with
    | true =>
      simp only [attachOne, hrm, if_pos] at h ⊢
      have hi : i = 0 := by
        cases h
        rfl
      subst hi
      refine ⟨by rw [List.getD_cons_zero]; exact setCell_getD row c content, ?_⟩
      cases hrm2 : rowMatches baseId (setCell row c content) with
      | true =>
        simp only [attachOne, hrm2, if_pos]
        rw [List.getD_cons_zero]
        exact setCell_getD _ c content
      | false =>
        simp only [attachOne, hrm2, Bool.false_eq_true, if_false]
        rw [List.getD_cons_zero]
        exact setCell_getD row c content
    | false =>
      simp only [attachOne, hrm, Bool.false_eq_true, if_false] at h ⊢
      rw [Option.map_eq_some'] at h
      obtain ⟨i0, hi0, hieq⟩ := h
      subst hieq
      obtain ⟨h1, h2⟩ := ih i0 hi0
      refine ⟨by rw [List.getD_cons_succ]; exact h1, ?_⟩
      rw [List.getD_cons_succ]
      exact h2

/-- C8 witness: the overwrite statement instantiated on a concrete table with
one matching record. -/
theorem merge_twice_same_value_witness :
    (attachOne 1 "S" "alice" [["alice", "x"]]).2 = some 0 ∧
    ((attachOne 1 "S" "alice" [["alice", "x"]]).1.getD 0 []).getD 1 "" = "S" ∧
    (((attachOne 1 "S" "alice"
        (attachOne 1 "S" "alice" [["alice", "x"]]).1).1.getD 0 []).getD 1 "") = "S" := by
  have h := merge_twice_same_value 1 "S" "alice" [["alice", "x"]] 0 (by decide)
  exact ⟨by decide, h.1, h.2⟩

/-- C6 helper: when the requested name is absent, header resolution appends it
at the end and reports the old header length as its index. -/
theorem findHeaderIndex_absent (headers : List String) (name : String)
    (h : name ∉ headers) :
    findHeaderIndex headers name = (headers.length, headers ++ [name], true) := by
  induction headers with
  | nil => rfl
  | cons hd t ih =>
    have hne : hd ≠ name := fun he => h (he ▸ List.mem_cons_self hd t)
    have hnt : name ∉ t := fun ht => h (List.mem_cons_of_mem hd ht)
    simp only [findHeaderIndex, if_neg hne, ih hnt]
    rfl

/-- C6: when the requested column name is absent from the header, resolution
appends exactly one header entry at the end, and the padding pass extends
every (uniform-width) data record by one empty field to the new header width,
so every padded record has as many fields as the new header and the later
write at the resolved index stays in bounds and never appends. -/
theorem column_creation_padding (headers : List String) (name : String)
    (rows : List (List String)) (habs : name ∉ headers)
    (huni : ∀ r ∈ rows, r.length = headers.length) :
    (findHeaderIndex headers name).2.1 = headers ++ [name] ∧
    (findHeaderIndex headers name).1 = headers.length ∧
    (findHeaderIndex headers name).2.1.length = headers.length + 1 ∧
    ∀ r ∈ padRecordsOnce (headers ++ [name]) rows,
      r.length = headers.length + 1 ∧
      ∀ content : String,
        setCell r (findHeaderIndex headers name).1 content =
          r.set headers.length content := by
  rw [findHeaderIndex_absent headers name habs]
  refine ⟨rfl, rfl, by rw [List.length_append]; rfl, ?_⟩
  intro r hr
  unfold padRecordsOnce at hr
  rw [List.mem_map] at hr
  obtain ⟨r0, hr0, heq⟩ := hr
  have hlen : r0.length = headers.length := huni r0 hr0
  have hcond : r0.length < (headers ++ [name]).length := by
    rw [List.length_append, hlen, List.length_singleton]
    omega
  rw [if_pos hcond] at heq
  have hrlen : r.length = headers.length + 1 := by
    rw [← heq, List.length_append, hlen]
    rfl
  refine ⟨hrlen, fun content => ?_⟩
  unfold setCell
  rw [hrlen]
  have : headers.length + 1 - (headers.length + 1) = 0 := Nat.sub_self _
  rw [this, List.replicate_zero, List.append_nil]

/-- C6 witness: the column-creation statement instantiated at a concrete
header, absent column name and one-record table. -/
theorem column_creation_padding_witness :
    (findHeaderIndex ["a"] "b").2.1 = ["a"] ++ ["b"] ∧
    (["x"] : List String).length = (["a"] : List String).length + 1 - 1 := by
  have h := column_creation_padding ["a"] "b" [["x"]] (by decide)
    (by intro r hr; cases hr with
        | head => rfl
        | tail _ hm => cases hm)
  exact ⟨h.1, rfl⟩

/-- C3 helper: every outcome increment grows the sum of the three outcome
counters by exactly one and leaves the total untouched. -/
theorem foldl_applyOutcome_counts (outs : List Outcome) :
    ∀ s : ProcessingStats,
      (outs.foldl applyOutcome s).successful + (outs.foldl applyOutcome s).failed +
          (outs.foldl applyOutcome s).skipped =
        s.successful + s.failed + s.skipped + outs.length ∧
      (outs.foldl applyOutcome s).total = s.total := by
  induction outs with
  | nil => intro s; exact ⟨rfl, rfl⟩
  | cons o t ih =>
    intro s
    have step :
        (applyOutcome s o).successful + (applyOutcome s o).failed +
            (applyOutcome s o).skipped =
          s.successful + s.failed + s.skipped + 1 ∧
        (applyOutcome s o).total = s.total := by
      cases o with
      | success ft =>
        refine ⟨?_, rfl⟩
        show s.successful + 1 + s.failed + s.skipped =
          s.successful + s.failed + s.skipped + 1
        omega
      | failed =>
        refine ⟨?_, rfl⟩
        show s.successful + (s.failed + 1) + s.skipped =
          s.successful + s.failed + s.skipped + 1
        omega
      | skipped =>
        refine ⟨?_, rfl⟩
        show s.successful + s.failed + (s.skipped + 1) =
          s.successful + s.failed + s.skipped + 1
        omega
    have ihs := ih (applyOutcome s o)
    constructor
    · rw [List.foldl_cons, ihs.1, step.1, List.length_cons]
      omega
    · rw [List.foldl_cons, ihs.2, step.2]

/-- C3: during any dispatcher run, at every point of any serialization of the
mutex-protected increments, successful + failed + skipped is at most the
total, which is fixed to the number of enumerated jobs before any job starts;
once every job's single increment has been applied, equality holds. -/
theorem stats_accounting (jobs : List (String × JobEnv)) (order pfx : List Outcome)
    (hperm : List.Perm order (jobs.map (fun j => processFileOutcome j.1 j.2)))
    (hpre : ∃ rest, pfx ++ rest = order) :
    (runStats jobs.length pfx).successful + (runStats jobs.length pfx).failed +
        (runStats jobs.length pfx).skipped ≤ (runStats jobs.length pfx).total ∧
    (runStats jobs.length pfx).total = jobs.length ∧
    (pfx = order →
      (runStats jobs.length order).successful + (runStats jobs.length order).failed +
          (runStats jobs.length order).skipped = (runStats jobs.length order).total) := by
  have horder : order.length = jobs.length := by
    rw [hperm.length_eq, List.length_map]
  have hple : pfx.length ≤ order.length := by
    obtain ⟨rest, hrest⟩ := hpre
    rw [← hrest, List.length_append]
    omega
  have hcounts := foldl_applyOutcome_counts pfx (initStats jobs.length)
  have hcounts2 := foldl_applyOutcome_counts order (initStats jobs.length)
  refine ⟨?_, hcounts.2, fun hfin => ?_⟩
  · unfold runStats
    rw [hcounts.1, hcounts.2]
    show 0 + 0 + 0 + pfx.length ≤ jobs.length
    omega
  · unfold runStats
    rw [hcounts2.1, hcounts2.2]
    show 0 + 0 + 0 + order.length = jobs.length
    omega

/-- C3 witness: the accounting statement instantiated on a concrete
one-job run whose single outcome is a success. -/
theorem stats_accounting_witness :
    (runStats 1 [Outcome.success FileType.json]).successful +
        (runStats 1 [Outcome.success FileType.json]).failed +
        (runStats 1 [Outcome.success FileType.json]).skipped =
      (runStats 1 [Outcome.success FileType.json]).total := by
  have h := stats_accounting
    [("a.json", ⟨false, false, false, false, false, false⟩)]
    [Outcome.success FileType.json] [Outcome.success FileType.json]
    (by decide) ⟨[], List.append_nil _⟩
  exact h.2.2 rfl

/-- C4: for every maxWorkers N of at least 1 and every job count, in every
state reachable by the dispatch loop from the initial state (all jobs
unlaunched, no token held), the number of jobs holding a semaphore token —
and hence the number of concurrently running External Transformer Adapter
invocations — never exceeds N; a launch acquires a token only below the
bound and a finishing job always releases its token, whatever its outcome. -/
theorem concurrency_bound (maxWorkers jobs : Nat) (s : DispatchState)
    (_hN : 1 ≤ maxWorkers)
    (hreach : Relation.ReflTransGen (DispatchStep maxWorkers)
      ⟨jobs, 0⟩ s) :
    s.inFlight ≤ maxWorkers := by
  induction hreach with
  | refl => exact Nat.zero_le _
  | tail _ hstep ih =>
    cases hstep with
    | launch hb hlt => exact hlt
    | finish hb => exact Nat.le_trans (Nat.sub_le _ 1) ih

/-- C4 witness: the bound instantiated at maxWorkers one, two jobs, and the
state reached after one launch. -/
theorem concurrency_bound_witness :
    (⟨1, 1⟩ : DispatchState).inFlight ≤ 1 :=
  concurrency_bound 1 2 ⟨1, 1⟩ (Nat.le_refl 1)
    (Relation.ReflTransGen.single
      (DispatchStep.launch ⟨2, 0⟩ (by decide) (by decide)))

/-- C10 helper: the boolean prefix test is exactly list-prefix decomposition. -/
theorem startsWithList_iff (p : List Char) :
    ∀ l : List Char, startsWithList l p = true ↔ ∃ t, l = p ++ t := by
  induction p with
  | nil =>
    intro l
    constructor
    · intro _; exact ⟨l, rfl⟩
    · intro _
      cases l <;> rfl
  | cons b bs ih =>
    intro l
    cases l with
    | nil =>
      constructor
      · intro h; exact absurd h (by simp [startsWithList])
      · rintro ⟨t, ht⟩; exact absurd ht (by simp)
    | cons a as =>
      constructor
      · intro h
        simp only [startsWithList, Bool.and_eq_true, decide_eq_true_eq] at h
        obtain ⟨hab, hrec⟩ := h
        obtain ⟨t, ht⟩ := (ih as).1 hrec
        exact ⟨t, by rw [hab, ht]; rfl⟩
      · rintro ⟨t, ht⟩
        rw [List.cons_append] at ht
        injection ht with h1 h2
        simp only [startsWithList, Bool.and_eq_true, decide_eq_true_eq]
        exact ⟨h1, (ih as).2 ⟨t, h2⟩⟩

/-- C10 helper: a true suffix test yields a decomposition of the name. -/
theorem strEndsWith_decomp {s suffix : String}
    (h : strEndsWith s suffix = true) : ∃ pre, s.data = pre ++ suffix.data := by
  unfold strEndsWith at h
  obtain ⟨t, ht⟩ := (startsWithList_iff suffix.data.reverse s.data.reverse).1 h
  refine ⟨t.reverse, ?_⟩
  have := congrArg List.reverse ht
  rw [List.reverse_reverse, List.reverse_append, List.reverse_reverse] at this
  exact this

theorem extSplit_of_no_dot {l : List Char} (h : '.' ∉ l) : extSplit l = none := by
  induction l with
  | nil => rfl
  | cons c t ih =>
    have hct : '.' ∉ t := fun hm => h (List.mem_cons_of_mem c hm)
    have hc : c ≠ '.' := fun he => h (he ▸ List.mem_cons_self c t)
    simp only [extSplit, ih hct, if_neg hc]

/-- C10 helper: when everything after the last dot is dot-free, extSplit cuts
exactly there. -/
theorem extSplit_append (l1 l2 : List Char) (h : '.' ∉ l2) :
    extSplit (l1 ++ '.' :: l2) = some (l1, '.' :: l2) := by
  induction l1 with
  | nil =>
    show extSplit ('.' :: l2) = some ([], '.' :: l2)
    simp [extSplit, extSplit_of_no_dot h]
  | cons c t ih =>
    show extSplit (c :: (t ++ '.' :: l2)) = _
    simp only [extSplit, ih]

/-- C10 helper: a name ending in .json has extension .json. -/
theorem filepathExt_json {s : String} (h : strEndsWith s ".json" = true) :
    filepathExt s = ".json" := by
  obtain ⟨pre, hpre⟩ := strEndsWith_decomp h
  have hjson : (".json" : String).data = '.' :: ['j', 's', 'o', 'n'] := by decide
  have hnodot : '.' ∉ (['j', 's', 'o', 'n'] : List Char) := by decide
  unfold filepathExt
  rw [hpre, hjson, extSplit_append pre _ hnodot]

/-- C10 helper: a name ending in .md has extension .md. -/
theorem filepathExt_md {s : String} (h : strEndsWith s ".md" = true) :
    filepathExt s = ".md" := by
  obtain ⟨pre, hpre⟩ := strEndsWith_decomp h
  have hmd : (".md" : String).data = '.' :: ['m', 'd'] := by decide
  have hnodot : '.' ∉ (['m', 'd'] : List Char) := by decide
  unfold filepathExt
  rw [hpre, hmd, extSplit_append pre _ hnodot]

/-- C10 helper: an enumerated file never classifies as unknown. -/
theorem detect_of_enumerated {names : List String} {f : String}
    (hf : f ∈ findInputFiles names) : detectFileType f ≠ FileType.unknown := by
  unfold findInputFiles at hf
  rw [List.mem_append, List.mem_filter, List.mem_filter] at hf
  cases hf with
  | inl hj =>
    have hext := filepathExt_json hj.2
    unfold detectFileType
    rw [hext]
    have hlow : lowerStr ".json" = ".json" := by decide
    rw [hlow, if_pos rfl]
    exact fun hc => FileType.noConfusion hc
  | inr hm =>
    have hext := filepathExt_md hm.2
    unfold detectFileType
    rw [hext]
    have hlow : lowerStr ".md" = ".md" := by decide
    rw [hlow]
    have hne : (".md" : String) ≠ ".json" := by decide
    rw [if_neg hne, if_pos rfl]
    exact fun hc => FileType.noConfusion hc

/-- C10 helper: a job whose file is not of unknown kind never reports the
skipped outcome. -/
theorem outcome_not_skipped {f : String} (e : JobEnv)
    (h : detectFileType f ≠ FileType.unknown) :
    processFileOutcome f e ≠ Outcome.skipped := by
  unfold processFileOutcome
  intro hc
  by_cases h1 : e.cmdEmpty = true
  · rw [if_pos h1] at hc
    exact Outcome.noConfusion hc
  · rw [if_neg h1, if_neg h] at hc
    by_cases h2 : e.readErr = true
    · rw [if_pos h2] at hc; exact Outcome.noConfusion hc
    · rw [if_neg h2] at hc
      by_cases h3 : e.pipeErr = true
      · rw [if_pos h3] at hc; exact Outcome.noConfusion hc
      · rw [if_neg h3] at hc
        by_cases h4 : e.startErr = true
        · rw [if_pos h4] at hc; exact Outcome.noConfusion hc
        · rw [if_neg h4] at hc
          by_cases h5 : e.writeErr = true
          · rw [if_pos h5] at hc; exact Outcome.noConfusion hc
          · rw [if_neg h5] at hc
            by_cases h6 : e.waitErr = true
            · rw [if_pos h6] at hc; exact Outcome.noConfusion hc
            · rw [if_neg h6] at hc; exact Outcome.noConfusion hc

/-- C10 helper: the skipped counter is untouched by a fold over outcomes that
contains no skip. -/
theorem foldl_no_skip (outs : List Outcome) :
    ∀ s : ProcessingStats, (∀ o ∈ outs, o ≠ Outcome.skipped) →
      (outs.foldl applyOutcome s).skipped = s.skipped := by
  induction outs with
  | nil => intro s _; rfl
  | cons o t ih =>
    intro s hall
    rw [List.foldl_cons]
    have hs := ih (applyOutcome s o)
      (fun o2 ho2 => hall o2 (List.mem_cons_of_mem o ho2))
    rw [hs]
    have ho := hall o (List.mem_cons_self o t)
    cases o with
    | success ft => rfl
    | failed => rfl
    | skipped => exact absurd rfl ho

theorem mem_of_zipWith {o : Outcome} :
    ∀ (fs : List String) (es : List JobEnv),
      o ∈ List.zipWith processFileOutcome fs es →
      ∃ f e, f ∈ fs ∧ o = processFileOutcome f e := by
  intro fs
  induction fs with
  | nil => intro es h; cases h
  | cons f ft ih =>
    intro es h
    cases es with
    | nil => cases h
    | cons e et =>
      rw [List.zipWith_cons_cons, List.mem_cons] at h
      cases h with
      | inl he => exact ⟨f, e, List.mem_cons_self f ft, he⟩
      | inr hm =>
        obtain ⟨f2, e2, hf2, he2⟩ := ih et hm
        exact ⟨f2, e2, List.mem_cons_of_mem f hf2, he2⟩

/-- C10: every path returned by input enumeration ends in .json or .md, so
kind classification never yields the unknown kind for an enumerated file, the
unknown-kind skip branch is unreachable, and the skipped counter is zero at
the end of every run over the enumerated files. -/
theorem enumerated_never_skipped (names : List String) (envs : List JobEnv) :
    (∀ f ∈ findInputFiles names, detectFileType f ≠ FileType.unknown) ∧
    (runStats (findInputFiles names).length
      (List.zipWith processFileOutcome (findInputFiles names) envs)).skipped = 0 := by
  refine ⟨fun f hf => detect_of_enumerated hf, ?_⟩
  unfold runStats
  rw [foldl_no_skip]
  · rfl
  · intro o ho
    obtain ⟨f, e, hf, he⟩ := mem_of_zipWith (findInputFiles names) envs ho
    rw [he]
    exact outcome_not_skipped e (detect_of_enumerated hf)

/-- C10 witness: the statement instantiated on a concrete directory listing
containing a json file, a markdown file and an ignored text file. -/
theorem enumerated_never_skipped_witness :
    detectFileType "alice.json" ≠ FileType.unknown ∧
    (runStats (findInputFiles ["alice.json", "bob.md", "notes.txt"]).length
      (List.zipWith processFileOutcome
        (findInputFiles ["alice.json", "bob.md", "notes.txt"])
        [⟨false, false, false, false, false, false⟩,
         ⟨false, true, false, false, false, false⟩])).skipped = 0 := by
  have h := enumerated_never_skipped ["alice.json", "bob.md", "notes.txt"]
    [⟨false, false, false, false, false, false⟩,
     ⟨false, true, false, false, false, false⟩]
  exact ⟨h.1 "alice.json" (by decide), h.2⟩
